import Mathlib

/-!
Shallow embedding of the directed-graph library in `25-08-29/graphen.py` and
of the greedy colouring in `26-01-30/coloring.py`.

A Python `Vertex` is identified by its string id (equality and hash are
derived from the id alone), so vertices are modelled as `String`.  A Python
`dict[Vertex, list[Vertex]]` preserves insertion order and has pairwise
distinct keys; it is modelled as an association list `List (V × List V)`,
looked up by first match.  A Python operation that can raise an exception
(`KeyError` on a missing dict key, `IndexError` on an out-of-range index)
is modelled as an `Option`-valued function returning `none` in exactly the
raising cases.
-/

abbrev V : Type := String

/-- The adjacency mapping `self._graph : dict[Vertex, list[Vertex]]`. -/
abbrev Gr : Type := List (V × List V)

/-- Indexing `d[v]` into an association list: first entry whose key is `v`,
`none` when the key is absent (Python raises `KeyError`). -/
def lookupA {β : Type} : List (V × β) → V → Option β
  | [], _ => none
  | (k, b) :: rest, v => if k = v then some b else lookupA rest v

/-- Assignment `d[v] = new` for a key `v` that is present: replaces the value
of the first entry whose key is `v` (used for mutating a neighbour list in
place). -/
def updateA {β : Type} : List (V × β) → V → β → List (V × β)
  | [], _, _ => []
  | (k, b) :: rest, v, new =>
    if k = v then (k, new) :: rest else (k, b) :: updateA rest v new

/-- Method `exist_vertex`: `vertex in self._graph` (dict key membership). -/
def exist_vertex (g : Gr) (v : V) : Bool :=
  (g.map Prod.fst).contains v

/-- Method `exist_edge`: `end_vertex in self._graph[start_vertex]`; the
indexing raises `KeyError` (here `none`) when `start_vertex` is not a key. -/
def exist_edge (g : Gr) (start_vertex end_vertex : V) : Option Bool :=
  (lookupA g start_vertex).map (fun ns => ns.contains end_vertex)

/-- Method `get_all_edges`: `self._graph[vertex]`, raising (`none`) when
`vertex` is not a key. -/
def get_all_edges (g : Gr) (v : V) : Option (List V) :=
  lookupA g v

/-- The in-degree sum of `get_degree`:
`sum(1 for other_vertex, targets in self._graph.items() for target in targets
if target == vertex)`. -/
def inDegree (g : Gr) (v : V) : Nat :=
  (g.map (fun p => p.2.count v)).sum

/-- Method `get_degree`: `len(self._graph[vertex])` plus the in-degree sum;
the indexing raises `KeyError` (here `none`) when `vertex` is not a key. -/
def get_degree (g : Gr) (v : V) : Option Nat :=
  (lookupA g v).map (fun ns => ns.length + inDegree g v)

/-- Method `has_euler_circle`:
`all(self.get_degree(v) % 2 == 0 for v in self._graph)`.  The iteration is
over the keys of `self._graph`, so `get_degree` never raises here; the
`none` branch is unreachable (`p.1` is a key of `g`). -/
def has_euler_circle (g : Gr) : Bool :=
  g.all (fun p =>
    match get_degree g p.1 with
    | some d => d % 2 == 0
    | none => true)

/-- One inner step of `is_symmetric`: the conjuncts
`vertex in self._graph[target]` for the successive targets of one row;
`self._graph[target]` raises `KeyError` (here `none`) when `target` is a
dangling (non-key) vertex.  `all` short-circuits on the first false
conjunct without evaluating later ones. -/
def symmRow (g : Gr) (vertex : V) : List V → Option Bool
  | [] => some true
  | t :: ts =>
    match lookupA g t with
    | none => none
    | some vs => if vertex ∈ vs then symmRow g vertex ts else some false

/-- The outer iteration of `is_symmetric` over the rows of the mapping. -/
def symmRows (g : Gr) : List (V × List V) → Option Bool
  | [] => some true
  | (v, ns) :: rest =>
    match symmRow g v ns with
    | none => none
    | some true => symmRows g rest
    | some false => some false

/-- Method `is_symmetric`:
`all(vertex in self._graph[target] for vertex, vertices in
self._graph.items() for target in vertices)`; `none` models the `KeyError`
raised on the first dangling target reached. -/
def is_symmetric (g : Gr) : Option Bool :=
  symmRows g g

/-- Total number of entries across all neighbour lists (the number of edges
remaining in the working copy); the termination measure of the
`while stack:` loop of `find_euler_circle`. -/
def edgeCount (g : Gr) : Nat :=
  (g.map (fun p => p.2.length)).sum

theorem lookupA_edgeCount {g : Gr} {v : V} {ns : List V} (new : List V)
    (h : lookupA g v = some ns) :
    edgeCount (updateA g v new) + ns.length = edgeCount g + new.length := by
  induction g with
  | nil => simp [lookupA] at h
  | cons p rest ih =>
    obtain ⟨k, b⟩ := p
    by_cases hk : k = v
    · simp [lookupA, hk] at h
      subst h
      simp [updateA, hk, edgeCount]
      omega
    · simp [lookupA, hk] at h
      have := ih h
      simp [updateA, hk, edgeCount] at this ⊢
      omega

/-- The `while stack:` loop of `find_euler_circle` (Hierholzer).  `g` is the
working copy, the head of `stack` is the Python `stack[-1]`, `sol` is the
`solution` list.  `vertices.pop()` removes the last element of the
neighbour list; `graph[vertex]` raises `KeyError` (here `none`) when the
top of the stack is not a key of the working copy. -/
def eulerLoop (g : Gr) (stack : List V) (sol : List V) : Option (List V) :=
  match stack with
  | [] => some sol
  | v :: rest =>
    match h : lookupA g v with
    | none => none
    | some [] => eulerLoop g rest (sol ++ [v])
    | some (n :: ns) =>
      eulerLoop (updateA g v (n :: ns).dropLast)
        ((n :: ns).getLast (by simp) :: v :: rest) sol
termination_by 2 * edgeCount g + stack.length
decreasing_by
  · simp
  · have h2 := lookupA_edgeCount (n :: ns).dropLast h
    simp at h2
    simp
    omega

/-- The copy `graph = {k: v.copy() for k, v in self._graph.items()}`: a new
mapping whose neighbour lists are fresh lists with the same elements. -/
def copyGraph (g : Gr) : Gr :=
  g.map (fun p => (p.1, p.2.map id))

/-- Method `find_euler_circle`: returns `[]` when `has_euler_circle` is
false; otherwise works on the copy, starting from `list(graph.keys())[0]`,
which raises `IndexError` (here `none`) when the graph has no keys, and
runs the loop, reversing the collected solution. -/
def find_euler_circle (g : Gr) : Option (List V) :=
  if !has_euler_circle g then some []
  else
    match copyGraph g with
    | [] => none
    | (k, ns) :: rest => (eulerLoop ((k, ns) :: rest) [k] []).map List.reverse

/-- The method call on object state `g`: result paired with the `_graph`
field after the call.  The source reads `self._graph` only to build the
copy and mutates the copy alone, so the post-state is `g` itself. -/
def find_euler_circle_call (g : Gr) : Option (List V) × Gr :=
  (find_euler_circle g, g)

/-- The chain condition of `find_hamilton_circle`:
`all(permutation[i+1] in self._graph[permutation[i]] for i in
range(len(vertexes)-1))`, short-circuiting on the first false conjunct;
`self._graph[permutation[i]]` raises `KeyError` (here `none`) on a non-key
(impossible for a permutation of the keys). -/
def adjAll (g : Gr) : List V → Option Bool
  | [] => some true
  | [_] => some true
  | a :: b :: rest =>
    match lookupA g a with
    | none => none
    | some vs => if b ∈ vs then adjAll g (b :: rest) else some false

/-- The acceptance condition on one permutation:
`all(...) and permutation[0] in self._graph[permutation[-1]]`.  When the
chain condition is true and the permutation is empty, `permutation[0]`
raises `IndexError` (here `none`). -/
def checkPerm (g : Gr) (p : List V) : Option Bool :=
  match adjAll g p with
  | none => none
  | some false => some false
  | some true =>
    match p with
    | [] => none
    | h :: t =>
      match lookupA g ((h :: t).getLast (by simp)) with
      | none => none
      | some ns => some (h ∈ ns)

/-- The `for permutation in itertools.permutations(vertexes):` loop: return
the first permutation accepted, `[]` after an exhausted loop, propagating
(`none`) a raised error.  The enumeration order of the permutations is
implementation-defined; the embedding enumerates the same collection via
`List.permutations'`. -/
def findHamiltonAux (g : Gr) : List (List V) → Option (List V)
  | [] => some []
  | p :: ps =>
    match checkPerm g p with
    | none => none
    | some true => some p
    | some false => findHamiltonAux g ps

/-- Method `find_hamilton_circle`: brute-force search over all permutations
of `list(self._graph.keys())`. -/
def find_hamilton_circle (g : Gr) : Option (List V) :=
  findHamiltonAux g (g.map Prod.fst).permutations'

theorem mem_le_foldr_max (l : List Nat) (c : Nat) (h : c ∈ l) :
    c ≤ l.foldr max 0 := by
  induction l with
  | nil => simp at h
  | cons x xs ih =>
    rcases List.mem_cons.mp h with h1 | h1
    · simp [h1, le_max_iff]
    · simp only [List.foldr_cons, le_max_iff]
      exact Or.inr (ih h1)

/-- The `while color in neighbor_colors: color += 1` loop of
`greedyColoring`: the smallest colour from `c` upwards not in `used`. -/
def whileColor (used : List Nat) (c : Nat) : Nat :=
  if h : c ∈ used then whileColor used (c + 1) else c
termination_by used.foldr max 0 + 1 - c
decreasing_by
  have := mem_le_foldr_max used c h
  omega

/-- The `for node in inputGraph:` loop of `greedyColoring`, threading the
`result` dict as an association list to which each node's colour is
appended: `neighbor_colors` collects `result[neighbor]` for the listed
neighbours already present in `result`, and the node gets the smallest
colour not in that set. -/
def greedyAux : List (V × List V) → List (V × Nat) → List (V × Nat)
  | [], acc => acc
  | (node, ns) :: rest, acc =>
    greedyAux rest
      (acc ++ [(node, whileColor (ns.filterMap (fun n => lookupA acc n)) 0)])

/-- Function `greedyColoring` of `26-01-30/coloring.py` (its nodes are plain
strings already). -/
def greedyColoring (g : List (V × List V)) : List (V × Nat) :=
  greedyAux g []

example : find_euler_circle ([] : Gr) = none := rfl
example : is_symmetric [("A", ["B"])] = none := rfl
example : find_hamilton_circle ([] : Gr) = none := rfl
example : find_hamilton_circle [("A", ["A"])] = some ["A"] := rfl
example : find_hamilton_circle [("A", [])] = some [] := rfl
example : find_hamilton_circle [("A", ["B"]), ("B", ["A"])] = some ["A", "B"] := rfl

theorem lookupA_eq_none_iff {β : Type} (l : List (V × β)) (v : V) :
    lookupA l v = none ↔ v ∉ l.map Prod.fst := by
  induction l with
  | nil => simp [lookupA]
  | cons p rest ih =>
    obtain ⟨k, b⟩ := p
    by_cases hk : k = v
    · simp [lookupA, hk]
    · simp [lookupA, hk, ih, Ne.symm hk]

theorem lookupA_isSome_iff {β : Type} (l : List (V × β)) (v : V) :
    (lookupA l v).isSome = true ↔ v ∈ l.map Prod.fst := by
  constructor
  · intro hs
    by_contra hmem
    rw [← lookupA_eq_none_iff] at hmem
    simp [hmem] at hs
  · intro hmem
    cases h : lookupA l v
    · rw [lookupA_eq_none_iff] at h
      exact absurd hmem h
    · simp

theorem lookupA_append_left {β : Type} {l1 : List (V × β)} {v : V} {b : β}
    (l2 : List (V × β)) (h : lookupA l1 v = some b) :
    lookupA (l1 ++ l2) v = some b := by
  induction l1 with
  | nil => simp [lookupA] at h
  | cons p rest ih =>
    obtain ⟨k, c⟩ := p
    by_cases hk : k = v
    · simp [lookupA, hk] at h ⊢
      exact h
    · simp [lookupA, hk] at h ⊢
      exact ih h

theorem lookupA_append_right {β : Type} {l1 : List (V × β)} {v : V}
    (l2 : List (V × β)) (h : lookupA l1 v = none) :
    lookupA (l1 ++ l2) v = lookupA l2 v := by
  induction l1 with
  | nil => simp
  | cons p rest ih =>
    obtain ⟨k, c⟩ := p
    by_cases hk : k = v
    · simp [lookupA, hk] at h
    · simp [lookupA, hk] at h ⊢
      exact ih h

theorem whileColor_spec (used : List Nat) (c : Nat) :
    whileColor used c ∉ used ∧ c ≤ whileColor used c ∧
      ∀ d, c ≤ d → d < whileColor used c → d ∈ used := by
  induction c using whileColor.induct used with
  | case1 c hmem ih =>
    rw [whileColor, dif_pos hmem]
    obtain ⟨ih1, ih2, ih3⟩ := ih
    refine ⟨ih1, by omega, ?_⟩
    intro d hcd hlt
    rcases Nat.eq_or_lt_of_le hcd with rfl | h
    · exact hmem
    · exact ih3 d h hlt
  | case2 c hmem =>
    rw [whileColor, dif_neg hmem]
    exact ⟨hmem, Nat.le_refl c, fun d hcd hlt => absurd hlt (by omega)⟩

theorem whileColor_le_length (used : List Nat) :
    whileColor used 0 ≤ used.length := by
  obtain ⟨-, -, h3⟩ := whileColor_spec used 0
  have hsub : Finset.range (whileColor used 0) ⊆ used.toFinset := by
    intro d hd
    rw [Finset.mem_range] at hd
    rw [List.mem_toFinset]
    exact h3 d (Nat.zero_le d) hd
  have := Finset.card_le_card hsub
  simpa using this.trans used.toFinset_card_le

theorem inDegree_eq_flatten (g : Gr) (v : V) :
    inDegree g v = ((g.map Prod.snd).flatten).count v := by
  induction g with
  | nil => simp [inDegree]
  | cons p rest ih => simp [inDegree, List.count_append] at ih ⊢; omega

theorem eulerLoop_nil (g : Gr) (sol : List V) : eulerLoop g [] sol = some sol := by
  rw [eulerLoop]

theorem eulerLoop_cons_none {g : Gr} {v : V} (rest sol : List V)
    (hl : lookupA g v = none) : eulerLoop g (v :: rest) sol = none := by
  rw [eulerLoop]
  split <;> simp_all

theorem eulerLoop_cons_done {g : Gr} {v : V} (rest sol : List V)
    (hl : lookupA g v = some []) :
    eulerLoop g (v :: rest) sol = eulerLoop g rest (sol ++ [v]) := by
  rw [eulerLoop]
  split <;> simp_all

theorem eulerLoop_cons_step {g : Gr} {v n : V} {ns : List V} (rest sol : List V)
    (hl : lookupA g v = some (n :: ns)) :
    eulerLoop g (v :: rest) sol =
      eulerLoop (updateA g v (n :: ns).dropLast)
        ((n :: ns).getLast (by simp) :: v :: rest) sol := by
  rw [eulerLoop]
  split <;> simp_all

theorem eulerLoop_some_length (g : Gr) (stack sol : List V) :
    ∀ out, eulerLoop g stack sol = some out → sol.length + stack.length ≤ out.length := by
  induction g, stack, sol using eulerLoop.induct with
  | case1 g sol =>
    intro out h
    rw [eulerLoop_nil] at h
    injection h with h
    subst h
    simp
  | case2 g sol v rest hl =>
    intro out h
    rw [eulerLoop_cons_none rest sol hl] at h
    cases h
  | case3 g sol v rest hl ih =>
    intro out h
    rw [eulerLoop_cons_done rest sol hl] at h
    have := ih out h
    simp only [List.length_append, List.length_cons, List.length_singleton] at this ⊢
    omega
  | case4 g sol v rest n ns hl ih =>
    intro out h
    rw [eulerLoop_cons_step rest sol hl] at h
    have := ih out h
    simp only [List.length_cons] at this ⊢
    omega

theorem find_euler_single_loop (v : V) : eulerLoop [(v, [])] [v] [] = some [v] := by
  have h1 : lookupA [(v, ([] : List V))] v = some [] := by simp [lookupA]
  rw [eulerLoop_cons_done [] [] h1, eulerLoop_nil]
  simp

theorem greedyAux_append (l1 l2 : List (V × List V)) (acc : List (V × Nat)) :
    greedyAux (l1 ++ l2) acc = greedyAux l2 (greedyAux l1 acc) := by
  induction l1 generalizing acc with
  | nil => rfl
  | cons p rest ih =>
    obtain ⟨node, ns⟩ := p
    simp only [List.cons_append, greedyAux]
    exact ih _

theorem greedyAux_keys (l : List (V × List V)) (acc : List (V × Nat)) :
    (greedyAux l acc).map Prod.fst = acc.map Prod.fst ++ l.map Prod.fst := by
  induction l generalizing acc with
  | nil => simp [greedyAux]
  | cons p rest ih =>
    obtain ⟨node, ns⟩ := p
    simp only [greedyAux, ih, List.map_append, List.map_cons]
    simp

theorem greedyAux_extends (l : List (V × List V)) (acc : List (V × Nat)) :
    ∃ t, greedyAux l acc = acc ++ t := by
  induction l generalizing acc with
  | nil => exact ⟨[], by simp [greedyAux]⟩
  | cons p rest ih =>
    obtain ⟨node, ns⟩ := p
    obtain ⟨t, ht⟩ :=
      ih (acc ++ [(node, whileColor (ns.filterMap (fun n => lookupA acc n)) 0)])
    refine ⟨(node, whileColor (ns.filterMap (fun n => lookupA acc n)) 0) :: t, ?_⟩
    simp only [greedyAux, ht, List.append_assoc, List.singleton_append]

theorem greedy_lookup_key (pre : List (V × List V)) (node : V) (ns : List V)
    (post : List (V × List V))
    (hnd : ((pre ++ (node, ns) :: post).map Prod.fst).Nodup) :
    lookupA (greedyColoring (pre ++ (node, ns) :: post)) node =
      some (whileColor (ns.filterMap (fun m => lookupA (greedyColoring pre) m)) 0) := by
  unfold greedyColoring
  rw [greedyAux_append]
  have hstep :
      greedyAux ((node, ns) :: post) (greedyAux pre []) =
        greedyAux post ((greedyAux pre []) ++
          [(node, whileColor (ns.filterMap (fun m => lookupA (greedyAux pre []) m)) 0)]) := rfl
  rw [hstep]
  obtain ⟨t, ht⟩ := greedyAux_extends post
    ((greedyAux pre []) ++
      [(node, whileColor (ns.filterMap (fun m => lookupA (greedyAux pre []) m)) 0)])
  rw [ht]
  have hnode : lookupA (greedyAux pre []) node = none := by
    rw [lookupA_eq_none_iff, greedyAux_keys]
    simp only [List.map_nil, List.nil_append]
    simp only [List.map_append, List.map_cons] at hnd
    have := List.nodup_append.mp hnd
    intro hmem
    exact this.2.2 hmem (List.mem_cons_self node _)
  rw [List.append_assoc, lookupA_append_right _ hnode]
  simp [lookupA]

theorem greedy_distinct_aux (pre : List (V × List V)) (u : V) (nsu : List V)
    (mid : List (V × List V)) (v : V) (nsv : List V) (post : List (V × List V))
    (hnd : ((pre ++ (u, nsu) :: (mid ++ (v, nsv) :: post)).map Prod.fst).Nodup)
    (huv : u ∈ nsv) :
    ∃ cu cv,
      lookupA (greedyColoring (pre ++ (u, nsu) :: (mid ++ (v, nsv) :: post))) u = some cu ∧
      lookupA (greedyColoring (pre ++ (u, nsu) :: (mid ++ (v, nsv) :: post))) v = some cv ∧
      cu ≠ cv := by
  have hcu := greedy_lookup_key pre u nsu (mid ++ (v, nsv) :: post) hnd
  have hassoc : pre ++ (u, nsu) :: (mid ++ (v, nsv) :: post) =
      (pre ++ (u, nsu) :: mid) ++ (v, nsv) :: post := by
    simp
  have hnd2 : (((pre ++ (u, nsu) :: mid) ++ (v, nsv) :: post).map Prod.fst).Nodup := by
    rw [← hassoc]; exact hnd
  have hcv := greedy_lookup_key (pre ++ (u, nsu) :: mid) v nsv post hnd2
  rw [← hassoc] at hcv
  have hndpre : ((pre ++ (u, nsu) :: mid).map Prod.fst).Nodup := by
    rw [List.map_append] at hnd2
    exact hnd2.of_append_left
  have hcu2 := greedy_lookup_key pre u nsu mid hndpre
  refine ⟨_, _, hcu, hcv, ?_⟩
  intro heq
  have hmem : whileColor (nsu.filterMap (fun m => lookupA (greedyColoring pre) m)) 0 ∈
      nsv.filterMap (fun m => lookupA (greedyColoring (pre ++ (u, nsu) :: mid)) m) := by
    rw [List.mem_filterMap]
    exact ⟨u, huv, by rw [hcu2]⟩
  exact (whileColor_spec _ 0).1 (heq ▸ hmem)

theorem adjAll_true (g : Gr) : ∀ (p : List V), adjAll g p = some true →
    ∀ i, i + 1 < p.length →
      ∃ ns, lookupA g (p.getD i "") = some ns ∧ p.getD (i + 1) "" ∈ ns := by
  intro p
  induction p with
  | nil => intro _ i hi; simp at hi
  | cons a t ih =>
    cases t with
    | nil => intro _ i hi; simp at hi
    | cons b rest =>
      intro h i hi
      rw [adjAll] at h
      split at h
      · cases h
      · rename_i vs hl
        by_cases hb : b ∈ vs
        · rw [if_pos hb] at h
          cases i with
          | zero => exact ⟨vs, by simpa using hl, by simpa using hb⟩
          | succ j =>
            have hj : j + 1 < (b :: rest).length := by
              simp at hi ⊢
              omega
            simpa using ih h j hj
        · rw [if_neg hb] at h
          cases h

theorem checkPerm_true (g : Gr) (p : List V) (h : checkPerm g p = some true) :
    adjAll g p = some true ∧ p ≠ [] ∧
      ∃ ns, lookupA g (p.getD (p.length - 1) "") = some ns ∧ p.getD 0 "" ∈ ns := by
  unfold checkPerm at h
  split at h
  · cases h
  · cases h
  · rename_i ha
    refine ⟨ha, ?_⟩
    split at h
    · cases h
    · rename_i a t
      refine ⟨by simp, ?_⟩
      split at h
      · cases h
      · rename_i ns hl
        injection h with h
        have hmem : a ∈ ns := of_decide_eq_true h
        have hgl : (a :: t).getD ((a :: t).length - 1) "" = (a :: t).getLast (by simp) := by
          rw [List.getLast_eq_getElem, List.getD_eq_getElem]
        refine ⟨ns, ?_, by simpa using hmem⟩
        rw [hgl]
        exact hl

theorem findHamiltonAux_mem (g : Gr) : ∀ (ps : List (List V)) (p : List V),
    findHamiltonAux g ps = some p → p ≠ [] →
      p ∈ ps ∧ checkPerm g p = some true := by
  intro ps
  induction ps with
  | nil =>
    intro p h hne
    rw [findHamiltonAux] at h
    injection h with h
    exact absurd h.symm hne
  | cons q qs ih =>
    intro p h hne
    rw [findHamiltonAux] at h
    split at h
    · cases h
    · rename_i hc
      injection h with h
      subst h
      exact ⟨List.mem_cons_self _ _, hc⟩
    · rename_i hc
      obtain ⟨h1, h2⟩ := ih p h hne
      exact ⟨List.mem_cons_of_mem q h1, h2⟩

/-- Claim C1, counterexample: on the graph `{A: [B, B], B: []}` every key
vertex has even total degree, so `has_euler_circle` is true, yet
`find_euler_circle` returns `[A, B, B]`, whose first and last elements
differ although its length is greater than 1. -/
theorem claim_C1_counterexample :
    has_euler_circle [("A", ["B", "B"]), ("B", [])] = true ∧
    find_euler_circle [("A", ["B", "B"]), ("B", [])] = some ["A", "B", "B"] ∧
    (["A", "B", "B"] : List V).getD 0 "" ≠ (["A", "B", "B"] : List V).getD 2 "" := by
  have hloop : eulerLoop [("A", ["B", "B"]), ("B", [])] ["A"] [] = some ["B", "B", "A"] := by
    rw [eulerLoop_cons_step [] []
      (show lookupA [("A", ["B", "B"]), ("B", [])] "A" = some ("B" :: ["B"]) from rfl)]
    show eulerLoop [("A", ["B"]), ("B", [])] ["B", "A"] [] = some ["B", "B", "A"]
    rw [eulerLoop_cons_done ["A"] []
      (show lookupA [("A", ["B"]), ("B", [])] "B" = some [] from rfl)]
    show eulerLoop [("A", ["B"]), ("B", [])] ["A"] ["B"] = some ["B", "B", "A"]
    rw [eulerLoop_cons_step [] ["B"]
      (show lookupA [("A", ["B"]), ("B", [])] "A" = some ("B" :: []) from rfl)]
    show eulerLoop [("A", []), ("B", [])] ["B", "A"] ["B"] = some ["B", "B", "A"]
    rw [eulerLoop_cons_done ["A"] ["B"]
      (show lookupA [("A", []), ("B", [])] "B" = some [] from rfl)]
    show eulerLoop [("A", []), ("B", [])] ["A"] ["B", "B"] = some ["B", "B", "A"]
    rw [eulerLoop_cons_done [] ["B", "B"]
      (show lookupA [("A", []), ("B", [])] "A" = some [] from rfl)]
    show eulerLoop [("A", []), ("B", [])] [] ["B", "B", "A"] = some ["B", "B", "A"]
    rw [eulerLoop_nil]
  refine ⟨by decide, ?_, by decide⟩
  unfold find_euler_circle
  rw [show has_euler_circle [("A", ["B", "B"]), ("B", [])] = true from by decide]
  simp only [Bool.not_true, Bool.false_eq_true, if_false]
  show (eulerLoop [("A", ["B", "B"]), ("B", [])] ["A"] []).map List.reverse =
    some ["A", "B", "B"]
  rw [hloop]
  rfl

/-- Claim C1, amended: `find_euler_circle` returns `some []` whenever
`has_euler_circle` is false; when `has_euler_circle` is true the call can
fail (empty graph, dangling target), and whenever it does return a
sequence, that sequence is non-empty; for a single key vertex with no
edges the result is `[v]`, not `[]`.  The first and last elements of a
returned sequence need not be equal. -/
theorem claim_C1 :
    (∀ g : Gr, has_euler_circle g = false → find_euler_circle g = some []) ∧
    (∀ (g : Gr) (out : List V), has_euler_circle g = true →
      find_euler_circle g = some out → out ≠ []) ∧
    (∀ v : V, find_euler_circle [(v, [])] = some [v]) := by
  refine ⟨?_, ?_, ?_⟩
  · intro g h
    unfold find_euler_circle
    rw [h]
    rfl
  · intro g out h1 h2
    unfold find_euler_circle at h2
    rw [h1] at h2
    simp only [Bool.not_true, Bool.false_eq_true, if_false] at h2
    split at h2
    · simp at h2
    · rename_i k ns rest heq
      obtain ⟨sol, hsol, hrev⟩ := Option.map_eq_some'.mp h2
      have hlen := eulerLoop_some_length _ _ _ sol hsol
      simp at hlen
      subst hrev
      intro hc
      simp only [List.reverse_eq_nil_iff] at hc
      subst hc
      simp at hlen
  · intro v
    have hh : has_euler_circle [(v, [])] = true := by
      simp [has_euler_circle, get_degree, lookupA, inDegree]
    unfold find_euler_circle
    rw [hh]
    simp only [Bool.not_true, Bool.false_eq_true, if_false]
    show (eulerLoop [(v, [])] [v] []).map List.reverse = some [v]
    rw [find_euler_single_loop]
    rfl

theorem claim_C1_witness : (["A", "A"] : List V) ≠ [] := by
  have hloop : eulerLoop [("A", ["A"])] ["A"] [] = some ["A", "A"] := by
    rw [eulerLoop_cons_step [] []
      (show lookupA [("A", ["A"])] "A" = some ("A" :: []) from rfl)]
    show eulerLoop [("A", [])] ["A", "A"] [] = some ["A", "A"]
    rw [eulerLoop_cons_done ["A"] []
      (show lookupA [("A", [])] "A" = some [] from rfl)]
    show eulerLoop [("A", [])] ["A"] ["A"] = some ["A", "A"]
    rw [eulerLoop_cons_done [] ["A"]
      (show lookupA [("A", [])] "A" = some [] from rfl)]
    show eulerLoop [("A", [])] [] ["A", "A"] = some ["A", "A"]
    rw [eulerLoop_nil]
  have hval : find_euler_circle [("A", ["A"])] = some ["A", "A"] := by
    unfold find_euler_circle
    rw [show has_euler_circle [("A", ["A"])] = true from by decide]
    simp only [Bool.not_true, Bool.false_eq_true, if_false]
    show (eulerLoop [("A", ["A"])] ["A"] []).map List.reverse = some ["A", "A"]
    rw [hloop]
    rfl
  exact claim_C1.2.1 [("A", ["A"])] ["A", "A"] (by decide) hval

/-- Claim C2: `has_euler_circle` is true iff every key vertex has even
total degree; connectivity plays no role (the disconnected all-even graph
`{A: [A], B: [B]}` yields true), and dangling targets are never
degree-checked (`{A: [X, Y]}` yields true although the dangling `X` has
odd in-degree and is not a vertex of the graph). -/
theorem claim_C2 :
    (∀ g : Gr, has_euler_circle g = true ↔
      ∀ v ∈ g.map Prod.fst, ∃ d, get_degree g v = some d ∧ d % 2 = 0) ∧
    has_euler_circle [("A", ["A"]), ("B", ["B"])] = true ∧
    (has_euler_circle [("A", ["X", "Y"])] = true ∧
      exist_vertex [("A", ["X", "Y"])] "X" = false ∧
      inDegree [("A", ["X", "Y"])] "X" % 2 = 1) := by
  refine ⟨?_, by decide, by decide, by decide, by decide⟩
  intro g
  unfold has_euler_circle
  rw [List.all_eq_true]
  constructor
  · intro h v hv
    obtain ⟨p, hp, hfst⟩ := List.mem_map.mp hv
    subst hfst
    have hme := h p hp
    split at hme
    · rename_i d heq
      exact ⟨d, heq, by simpa using hme⟩
    · rename_i heq
      have hs : (lookupA g p.1).isSome = true :=
        (lookupA_isSome_iff g p.1).mpr (List.mem_map_of_mem _ hp)
      unfold get_degree at heq
      rw [Option.map_eq_none'] at heq
      rw [heq] at hs
      cases hs
  · intro h p hp
    obtain ⟨d, hd, he⟩ := h p.1 (List.mem_map_of_mem _ hp)
    split
    · rename_i d2 heq
      rw [hd] at heq
      injection heq with heq
      subst heq
      simpa using he
    · rfl

theorem claim_C2_witness :
    ∃ d, get_degree [("A", ["A"])] "A" = some d ∧ d % 2 = 0 :=
  (claim_C2.1 [("A", ["A"])]).mp (by decide) "A" (by decide)

/-- Claim C3: on the graph with no vertices, `has_euler_circle` is
vacuously true, so the guard does not return `[]`; the start-vertex
selection `list(graph.keys())[0]` then raises `IndexError` (modelled as
`none`).  The code fails instead of returning the empty sequence asserted
by the claim and by `test_find_euler_circle_empty_graph`. -/
theorem claim_C3 : find_euler_circle ([] : Gr) = none := rfl

/-- Claim C4: on the graph with no vertices, the permutation loop examines
the single empty permutation; the chain condition is vacuously true and
`permutation[0]` then raises `IndexError` (modelled as `none`).  The code
fails instead of returning the empty result asserted by the claim and by
`test_find_hamilton_circle_empty_graph`. -/
theorem claim_C4 : find_hamilton_circle ([] : Gr) = none := rfl

/-- Claim C5: a non-empty result of `find_hamilton_circle` is a
permutation of the key vertices (each key exactly once) and every cyclic
consecutive pair, including the closing pair, is an edge; on a single-key
graph the result is `[v]` exactly when `v` has a self-loop and `[]`
otherwise. -/
theorem claim_C5 :
    (∀ (g : Gr) (p : List V), find_hamilton_circle g = some p → p ≠ [] →
      p.Perm (g.map Prod.fst) ∧
      ∀ i, i < p.length →
        ∃ ns, lookupA g (p.getD i "") = some ns ∧
          p.getD ((i + 1) % p.length) "" ∈ ns) ∧
    (∀ (v : V) (ns : List V),
      find_hamilton_circle [(v, ns)] = some (if v ∈ ns then [v] else [])) := by
  constructor
  · intro g p h hne
    obtain ⟨hmem, hcheck⟩ := findHamiltonAux_mem g _ p h hne
    have hperm : p.Perm (g.map Prod.fst) := List.mem_permutations'.mp hmem
    refine ⟨hperm, ?_⟩
    obtain ⟨hadj, hpne, ns0, hlast, hmem0⟩ := checkPerm_true g p hcheck
    intro i hi
    have hlen : 0 < p.length := List.length_pos.mpr hne
    by_cases hi2 : i + 1 < p.length
    · rw [Nat.mod_eq_of_lt hi2]
      exact adjAll_true g p hadj i hi2
    · have hieq : i = p.length - 1 := by omega
      subst hieq
      have hmod : (p.length - 1 + 1) % p.length = 0 := by
        rw [Nat.sub_add_cancel hlen, Nat.mod_self]
      rw [hmod]
      exact ⟨ns0, hlast, hmem0⟩
  · intro v ns
    by_cases hv : v ∈ ns <;>
      simp [find_hamilton_circle, findHamiltonAux, checkPerm, adjAll, lookupA, hv]

theorem claim_C5_witness :
    ∃ ns, lookupA [("A", ["B"]), ("B", ["A"])] ((["A", "B"] : List V).getD 0 "") = some ns ∧
      (["A", "B"] : List V).getD ((0 + 1) % (["A", "B"] : List V).length) "" ∈ ns :=
  (claim_C5.1 [("A", ["B"]), ("B", ["A"])] ["A", "B"] rfl (by decide)).2 0 (by decide)

/-- Claim C6: on the graph `{A: [B]}` whose edge target `B` is dangling
(not a key), `is_symmetric` indexes `self._graph[B]` and raises `KeyError`
(modelled as `none`) instead of returning the `False` asserted by the
claim and by `test_is_symmetric_vertex_not_in_graph`; `is_symmetric` is
therefore not total. -/
theorem claim_C6 : is_symmetric [("A", ["B"])] = none := rfl

/-- Claim C7: `exist_edge`, `get_all_edges` and `get_degree` fail with the
`KeyError`-style lookup failure (modelled as `none`) exactly when the
indexed vertex is not a key, and succeed on every key vertex. -/
theorem claim_C7 : ∀ (g : Gr) (u w : V),
    (exist_vertex g u = false →
      exist_edge g u w = none ∧ get_all_edges g u = none ∧ get_degree g u = none) ∧
    (exist_vertex g u = true →
      (exist_edge g u w).isSome = true ∧ (get_all_edges g u).isSome = true ∧
        (get_degree g u).isSome = true) := by
  intro g u w
  constructor
  · intro h
    have hn : lookupA g u = none := by
      rw [lookupA_eq_none_iff]
      simpa [exist_vertex] using h
    simp [exist_edge, get_all_edges, get_degree, hn]
  · intro h
    have hs : (lookupA g u).isSome = true := by
      rw [lookupA_isSome_iff]
      simpa [exist_vertex] using h
    obtain ⟨ns, hns⟩ := Option.isSome_iff_exists.mp hs
    simp [exist_edge, get_all_edges, get_degree, hns]

theorem claim_C7_witness :
    exist_edge [("A", ["B"])] "Z" "B" = none ∧
      get_all_edges [("A", ["B"])] "Z" = none ∧
      get_degree [("A", ["B"])] "Z" = none :=
  (claim_C7 [("A", ["B"])] "Z" "B").1 (by decide)

/-- Claim C8: for a key vertex `v`, `get_degree` returns the length of its
own neighbour sequence plus the number of occurrences of `v` as a target
across all neighbour sequences of the graph. -/
theorem claim_C8 (g : Gr) (v : V) (ns : List V) (h : lookupA g v = some ns) :
    get_degree g v = some (ns.length + ((g.map Prod.snd).flatten).count v) := by
  unfold get_degree
  rw [h]
  simp [inDegree_eq_flatten]

theorem claim_C8_witness : get_degree [("A", ["A"])] "A" = some 2 :=
  (claim_C8 [("A", ["A"])] "A" ["A"] rfl).trans (by decide)

/-- Claim C9: the method call of `find_euler_circle` leaves the object's
graph untouched: the post-call state has the same keys and the same
neighbour sequence for every vertex, because the loop mutates only the
copy `{k: v.copy()}`, a value equal to the original mapping. -/
theorem claim_C9 : ∀ g : Gr,
    (find_euler_circle_call g).2.map Prod.fst = g.map Prod.fst ∧
    (∀ v, lookupA (find_euler_circle_call g).2 v = lookupA g v) ∧
    copyGraph g = g := by
  intro g
  refine ⟨rfl, fun v => rfl, ?_⟩
  unfold copyGraph
  simp

/-- Claim C10: `greedyColoring` gives every node the smallest colour not
used by one of its listed neighbours that was processed earlier, so a
node's colour never exceeds the length of its neighbour list, and two
distinct mutually-adjacent nodes always receive different colours. -/
theorem claim_C10 :
    (∀ (pre : List (V × List V)) (node : V) (ns : List V) (post : List (V × List V)),
      ((pre ++ (node, ns) :: post).map Prod.fst).Nodup →
      ∃ c, lookupA (greedyColoring (pre ++ (node, ns) :: post)) node = some c ∧
        c ∉ ns.filterMap (fun m => lookupA (greedyColoring pre) m) ∧
        (∀ d, d < c → d ∈ ns.filterMap (fun m => lookupA (greedyColoring pre) m)) ∧
        c ≤ ns.length) ∧
    (∀ (g : List (V × List V)) (u v : V) (nsu nsv : List V),
      (g.map Prod.fst).Nodup → (u, nsu) ∈ g → (v, nsv) ∈ g → u ≠ v →
      v ∈ nsu → u ∈ nsv →
      lookupA (greedyColoring g) u ≠ lookupA (greedyColoring g) v) := by
  constructor
  · intro pre node ns post hnd
    refine ⟨_, greedy_lookup_key pre node ns post hnd, ?_, ?_, ?_⟩
    · exact (whileColor_spec _ 0).1
    · intro d hd
      exact (whileColor_spec _ 0).2.2 d (Nat.zero_le d) hd
    · exact (whileColor_le_length _).trans (List.length_filterMap_le _ _)
  · intro g u v nsu nsv hnd hu hv huv hvnsu hunsv
    obtain ⟨s, t, rfl⟩ := List.append_of_mem hu
    rcases List.mem_append.mp hv with hvs | hvt
    · obtain ⟨s1, s2, rfl⟩ := List.append_of_mem hvs
      have hshape : (s1 ++ (v, nsv) :: s2) ++ (u, nsu) :: t =
          s1 ++ (v, nsv) :: (s2 ++ (u, nsu) :: t) := by
        simp
      rw [hshape] at hnd ⊢
      obtain ⟨cv, cu, h1, h2, hne⟩ :=
        greedy_distinct_aux s1 v nsv s2 u nsu t hnd hvnsu
      rw [h1, h2]
      intro heq
      injection heq with heq
      exact hne heq.symm
    · rcases List.mem_cons.mp hvt with hvu | hvt2
      · injection hvu with h1 h2
        exact absurd h1.symm huv
      · obtain ⟨t1, t2, rfl⟩ := List.append_of_mem hvt2
        obtain ⟨cu, cv, h1, h2, hne⟩ :=
          greedy_distinct_aux s u nsu t1 v nsv t2 hnd hunsv
        rw [h1, h2]
        intro heq
        injection heq with heq
        exact hne heq

theorem claim_C10_witness :
    lookupA (greedyColoring [("A", ["B"]), ("B", ["A"])]) "A" ≠
      lookupA (greedyColoring [("A", ["B"]), ("B", ["A"])]) "B" :=
  claim_C10.2 [("A", ["B"]), ("B", ["A"])] "A" "B" ["B"] ["A"]
    (by decide) (by decide) (by decide) (by decide) (by decide) (by decide)
